import Mathlib

/-!
Shallow embedding of `expand_dividends.py`, a tool that expands a sparse list
of dividend payments (date, percent amount) into a dense daily series.

Modelling conventions:
* Python `datetime` dates are embedded as integers (`ℤ`) counting days since
  1970-01-01 (`rataDie` converts a Gregorian calendar date to this count);
  `datetime` subtraction `.days` becomes integer subtraction and
  `date + timedelta(days=d)` becomes integer addition.
* Python floats are embedded as exact rationals (`ℚ`).
* Python's in-place stable `list.sort(key=...)` and the non-mutating
  `sorted(...)` are both embedded as Mathlib's stable `List.insertionSort`
  by date; every stable sort computes the same list, so this is extensionally
  the sort the source performs.
* Fallible code returns `Except Err`; `Err` names the Python exceptions the
  source can actually raise on the modelled paths.
-/

/-- The runtime errors the Python source can raise on the modelled code paths:
`ValueError` (from `min()`/`max()` on an empty sequence),
`ZeroDivisionError` (from `s / (len(dividends)-1)` when the length is 1), and
`TypeError` (from `None / int` when a `Dividend` has no amount). -/
inductive Err where
  | valueError : Err
  | zeroDivisionError : Err
  | typeError : Err
deriving DecidableEq, Repr

/-- Embeds the Python `Dividend` record: a payment date and an optional payment
amount (`Dividend.__init__` defaults `dividend` to `None`).  The `end_date`
attribute of the Python class is always `None` and never read, so it is not
modelled.  Python `__eq__` compares `date` and `dividend` structurally, which
is the derived equality here. -/
structure Dividend where
  date : ℤ
  dividend : Option ℚ := none
deriving DecidableEq, Repr, Inhabited

/-- Day number of a Gregorian calendar date, counting days since 1970-01-01
(valid for all years ≥ 1, which covers every date in the source and its
tests).  This embeds Python `datetime.strptime(s, "%Y-%m-%d")` dates as
integers so that date differences in days are integer differences. -/
def rataDie (y m d : Nat) : ℤ :=
  let yAdj : Nat := if m ≤ 2 then y - 1 else y
  let era : Nat := yAdj / 400
  let yoe : Nat := yAdj % 400
  let mp : Nat := if m ≤ 2 then m + 9 else m - 3
  let doy : Nat := (153 * mp + 2) / 5 + d - 1
  let doe : Nat := yoe * 365 + yoe / 4 - yoe / 100 + doy
  (era * 146097 + doe : ℤ) - 719468

/-- The sort the source performs: `dividends.sort(key=lambda x: x.date)` /
`sorted(dividends, key=lambda x: x.date)` — a stable ascending sort by date. -/
def sortDividends (l : List Dividend) : List Dividend :=
  List.insertionSort (fun a b => a.date ≤ b.date) l

/-- One already-field-split data row of the CSV source, after the textual
date/number parsing that `Dividend.__init__` performs (the CSV reading and
string-to-value conversion are plain I/O adapters, abstracted here). -/
structure Row where
  date : ℤ
  dividend : Option ℚ
deriving DecidableEq, Repr

/-- Embeds `read_src_file`: skips exactly the first row (the header, dropped
unconditionally by `csv.__next__()`), turns each remaining row into a
`Dividend`, and then sorts the result by date
(`dividends.sort(key=lambda x: x.date)` on line 56 of the source). -/
def read_src_file (rows : List Row) : List Dividend :=
  sortDividends ((rows.drop 1).map fun r => { date := r.date, dividend := r.dividend })

/-- Index of the first element of the list whose date is strictly after `q`:
the `for i, d in enumerate(dividends): if d.date > date:` loop of
`last_dividend_before`. -/
def firstAfterIdx (q : ℤ) : List Dividend → Option ℕ
  | [] => none
  | d :: rest => if q < d.date then some 0 else (firstAfterIdx q rest).map (· + 1)

/-- Embeds `last_dividend_before(dividends, date)`: sorts a copy by date, scans
for the first element with `d.date > date` and returns the element one
position earlier.  When the very first sorted element is already after `date`,
the Python index `i-1 = -1` wraps around and returns the *last* element; when
no element is after `date`, the loop falls through and Python implicitly
returns `None`. -/
def last_dividend_before (dividends : List Dividend) (date : ℤ) : Option Dividend :=
  let s := sortDividends dividends
  match firstAfterIdx date s with
  | none => none
  | some 0 => s.getLast?
  | some (i + 1) => s[i]?

/-- The running sum `s` accumulated by the loop of `avg_days_between`: the sum
of date differences between consecutive elements of the (sorted) list. -/
def gapSum : List Dividend → ℤ
  | [] => 0
  | [_] => 0
  | p :: n :: rest => (n.date - p.date) + gapSum (n :: rest)

/-- Embeds `avg_days_between(dividends)`: sorts a copy by date, sums the day
gaps between consecutive elements and divides by `len(dividends) - 1`.
On a single-element list the divisor is 0 and Python raises
`ZeroDivisionError`; on the empty list the divisor is −1 and Python silently
returns `0 / -1 == -0.0` (here the rational 0). -/
def avg_days_between (dividends : List Dividend) : Except Err ℚ :=
  if dividends.length = 1 then .error .zeroDivisionError
  else .ok ((gapSum (sortDividends dividends) : ℚ) / ((dividends.length : ℚ) - 1))

/-- Ceiling `⌈a / b⌉` computed in integer arithmetic (`⌈a/b⌉ = -((-a) / b)` with `/`
the floor division for a positive divisor `b`).  Used to keep the embedding
kernel-executable; `intCeilDiv_eq_ceil` proves it equals the mathematical
ceiling of the exact quotient, which is what `math.ceil` computes on it. -/
def intCeilDiv (a : ℤ) (b : ℕ) : ℤ := -((-a) / (b : ℤ))

/-- Computes `math.ceil(avg_days_between(dividends))` as the source composes it on line
111, fused into integer arithmetic so the kernel can evaluate it
(`ceilAvgDays_eq` proves the fusion equals the literal composition).
The empty-list branch mirrors `ceil(0 / -1) = 0`. -/
def ceilAvgDays (dividends : List Dividend) : Except Err ℤ :=
  if dividends.length = 1 then .error .zeroDivisionError
  else if dividends.length = 0 then .ok 0
  else .ok (intCeilDiv (gapSum (sortDividends dividends)) (dividends.length - 1))

/-- The records the interpolation loop body emits for one consecutive sorted
pair `(prev, next)`: with `gap = (next.date - prev.date).days`, the loop
`for d in range(gap)` appends `Dividend(prev.date + d, prev.dividend / gap)`.
When `gap = 0` the loop body never runs (no division, no records); when
`gap > 0` and `prev` has no amount, `None / gap` raises `TypeError`. -/
def pairRecords (prev next : Dividend) : Except Err (List Dividend) :=
  let gap : ℕ := (next.date - prev.date).toNat
  if gap = 0 then .ok []
  else
    match prev.dividend with
    | none => .error .typeError
    | some a =>
        .ok ((List.range gap).map fun d : ℕ =>
          { date := prev.date + (d : ℤ), dividend := some (a / (gap : ℚ)) })

/-- The interpolation pass of `daily_dividends` (lines 101–108): walk the
sorted list pairwise in order, appending the records of `pairRecords` for each
consecutive pair; the first raised error aborts the whole call. -/
def interpolate : List Dividend → Except Err (List Dividend)
  | [] => .ok []
  | [_] => .ok []
  | p :: n :: rest => do
      let blk ← pairRecords p n
      let more ← interpolate (n :: rest)
      pure (blk ++ more)

/-- Embeds `daily_dividends(dividends, predict_future_dividend=True)`:
sorts the input in place, interpolates every consecutive pair, and (when the
flag is set) appends `g = ceil(avg_days_between(dividends))` further records
starting at the last event's date, each with amount `last.dividend / g`.
On the empty list, `min(dividends, key=...)` on line 94 raises `ValueError`.
The two `assert` statements on lines 98–99 always hold for a nonempty sorted
list and are not modelled.  Python's `range(g)` of a non-positive `g` is
empty, hence `Int.toNat`; as in `pairRecords`, the division only runs (and
`None` amounts only raise `TypeError`) when the loop body runs at least
once. -/
def daily_dividends (dividends : List Dividend) (predict_future_dividend : Bool := true) :
    Except Err (List Dividend) :=
  match sortDividends dividends with
  | [] => .error .valueError
  | x :: xs => do
      let s := x :: xs
      let interp ← interpolate s
      if predict_future_dividend then
        match ceilAvgDays s with
        | .error e => .error e
        | .ok g =>
            let gn : ℕ := g.toNat
            if gn = 0 then pure interp
            else
              let last := s.getLast (List.cons_ne_nil x xs)
              match last.dividend with
              | none => .error .typeError
              | some a =>
                  pure (interp ++ (List.range gn).map fun d : ℕ =>
                    { date := last.date + (d : ℤ), dividend := some (a / (gn : ℚ)) })
      else pure interp

/-! Spec-side definitions, transcribed from the specification's wording, to be
compared with the embedded source functions. -/

/-- Transcribed from the spec's interpolation sentence: for a pair
`(prev, next)` with `gap = next.date − prev.date` in days, one record per day
offset `d` in `[0, gap)`, dated `prev.date + d` with amount
`prev.amount / gap`. -/
def specBlock (prev next : Dividend) : List Dividend :=
  let gap : ℕ := (next.date - prev.date).toNat
  (List.range gap).map fun d : ℕ =>
    { date := prev.date + (d : ℤ), dividend := prev.dividend.map (· / (gap : ℚ)) }

/-- Transcribed from the spec: the interpolation pass emits, for each
consecutive pair of the (sorted) sequence, exactly the block of `specBlock`. -/
def specInterp : List Dividend → List Dividend
  | [] => []
  | [_] => []
  | p :: n :: rest => specBlock p n ++ specInterp (n :: rest)

/-- The day-count gaps between every pair of temporally adjacent events of a
(sorted) sequence, as the spec describes them. -/
def dateGaps (s : List Dividend) : List ℤ :=
  (s.zip s.tail).map fun pn => pn.2.date - pn.1.date

/-- Arithmetic mean of a list of integers, as a rational. -/
def arithMean (xs : List ℤ) : ℚ := (xs.sum : ℚ) / (xs.length : ℚ)

/-- Sum of the amounts of a list of records (a missing amount counts 0). -/
def amountSum (l : List Dividend) : ℚ := (l.map fun r => r.dividend.getD 0).sum

instance {ε α : Type} [DecidableEq ε] [DecidableEq α] : DecidableEq (Except ε α) := fun a b =>
  match a, b with
  | .error e, .error f =>
      if h : e = f then isTrue (by rw [h]) else isFalse (by intro hh; cases hh; exact h rfl)
  | .error _, .ok _ => isFalse (by intro hh; cases hh)
  | .ok _, .error _ => isFalse (by intro hh; cases hh)
  | .ok x, .ok y =>
      if h : x = y then isTrue (by rw [h]) else isFalse (by intro hh; cases hh; exact h rfl)

instance : IsTotal Dividend (fun a b => a.date ≤ b.date) :=
  ⟨fun a b => le_total a.date b.date⟩

instance : IsTrans Dividend (fun a b => a.date ≤ b.date) :=
  ⟨fun _ _ _ h h2 => le_trans h h2⟩

/-- The three-event input of `TestExpander.test_daily_dividends`:
(2020-10-10, 0.3), (2020-09-10, 0.3), (2020-08-11, 0.3), in the order the
Python test lists them. -/
def ex3 : List Dividend :=
  [{ date := rataDie 2020 10 10, dividend := some (3/10) },
   { date := rataDie 2020 9 10, dividend := some (3/10) },
   { date := rataDie 2020 8 11, dividend := some (3/10) }]

/-- The value `daily_dividends` computes on `ex3` with prediction on: the two
interpolated months followed by one extrapolated month, 30 daily records
each, every amount `0.3 / 30`. -/
def c3out : List Dividend :=
  ((List.range 30).map fun d : ℕ =>
    { date := rataDie 2020 8 11 + (d : ℤ), dividend := some ((3/10 : ℚ) / ((30:ℕ) : ℚ)) }) ++
  ((List.range 30).map fun d : ℕ =>
    { date := rataDie 2020 9 10 + (d : ℤ), dividend := some ((3/10 : ℚ) / ((30:ℕ) : ℚ)) }) ++
  ((List.range 30).map fun d : ℕ =>
    { date := rataDie 2020 10 10 + (d : ℤ), dividend := some ((3/10 : ℚ) / ((30:ℕ) : ℚ)) })

/-- The three-event input of `TestExpander.test_avg_days_between`
(dates 2020-10-10, 2020-09-10, 2020-08-11; no amounts). -/
def ex7 : List Dividend :=
  [{ date := rataDie 2020 10 10 }, { date := rataDie 2020 9 10 }, { date := rataDie 2020 8 11 }]

/-- The three-event input of `TestExpander.test_last_dividend_before`
(dates 2020-10-18, 2020-10-20, 2020-10-22; no amounts). -/
def ex8 : List Dividend :=
  [{ date := rataDie 2020 10 18 }, { date := rataDie 2020 10 20 }, { date := rataDie 2020 10 22 }]

/-- A single dividend event, (2020-08-11, 0.3). -/
def exSingle : List Dividend := [{ date := rataDie 2020 8 11, dividend := some (3/10) }]

/-- Two events on the same date (zero-day gap), both (2020-08-11, 0.3). -/
def exDup : List Dividend :=
  [{ date := rataDie 2020 8 11, dividend := some (3/10) },
   { date := rataDie 2020 8 11, dividend := some (3/10) }]

/-! Helper lemmas about the sort shared by several claims. -/

lemma sortDividends_perm (l : List Dividend) : (sortDividends l).Perm l :=
  List.perm_insertionSort _ l

lemma sortDividends_sorted (l : List Dividend) :
    List.Sorted (fun a b : Dividend => a.date ≤ b.date) (sortDividends l) :=
  List.sorted_insertionSort _ l

lemma sortDividends_idem (l : List Dividend) :
    sortDividends (sortDividends l) = sortDividends l :=
  (sortDividends_sorted l).insertionSort_eq

lemma sortDividends_length (l : List Dividend) :
    (sortDividends l).length = l.length :=
  (sortDividends_perm l).length_eq

lemma mem_sortDividends {l : List Dividend} {e : Dividend} :
    e ∈ sortDividends l ↔ e ∈ l :=
  (sortDividends_perm l).mem_iff

/-- C9 helper: the claim that `daily_dividends` only reorders its input is a
statement about the first line `dividends.sort(key=lambda x: x.date)`;
sorting an already-sorted list changes nothing, so the whole call computes
the same answer on the mutated (sorted) list as on the original. -/
lemma daily_dividends_sortDividends (l : List Dividend) (b : Bool) :
    daily_dividends (sortDividends l) b = daily_dividends l b := by
  unfold daily_dividends
  rw [sortDividends_idem]

/-- C9: `daily_dividends` begins with an in-place sort of the caller's list:
after any call the caller's list is `sortDividends l`, which is a permutation
of the original elements in ascending date order, and the call's result is
exactly the result on that reordered list. -/
theorem c9_input_mutated_to_sorted (l : List Dividend) (b : Bool) :
    (sortDividends l).Perm l ∧
    List.Sorted (fun a b : Dividend => a.date ≤ b.date) (sortDividends l) ∧
    daily_dividends (sortDividends l) b = daily_dividends l b :=
  ⟨sortDividends_perm l, sortDividends_sorted l, daily_dividends_sortDividends l b⟩

/-- C6 (counterexample): the parser does sort.  With data rows in descending
date order (after a header row), `read_src_file` returns the events in
ascending date order, not in the order the rows appear. -/
theorem c6_counterexample :
    read_src_file
      [{ date := 0, dividend := none },
       { date := 5, dividend := none },
       { date := 3, dividend := none }] =
      [{ date := 3, dividend := none }, { date := 5, dividend := none }] ∧
    ([{ date := 3, dividend := none }, { date := 5, dividend := none }] :
        List Dividend) ≠
      [{ date := 5, dividend := none }, { date := 3, dividend := none }] := by
  constructor
  · rfl
  · decide

/-- C6 (amended): `read_src_file` skips exactly the header row and converts
the remaining rows, but then sorts: its output is a permutation of the data
rows' events that is in ascending date order. -/
theorem c6_amended_parser_sorts (rows : List Row) :
    (read_src_file rows).Perm
      ((rows.drop 1).map fun r => { date := r.date, dividend := r.dividend }) ∧
    List.Sorted (fun a b : Dividend => a.date ≤ b.date) (read_src_file rows) :=
  ⟨sortDividends_perm _, sortDividends_sorted _⟩

/-- C4: no `InsufficientDataError` exists in the code.  On the empty list
`avg_days_between` silently returns `0 / -1 = -0.0` (the rational 0) and
`daily_dividends` raises `ValueError` from `min()`;  on a one-element list
both raise a bare `ZeroDivisionError` from `s / (len(dividends)-1)`. -/
theorem c4_insufficient_data_eval :
    avg_days_between [] = .ok 0 ∧
    avg_days_between exSingle = .error .zeroDivisionError ∧
    daily_dividends [] true = .error .valueError ∧
    daily_dividends exSingle true = .error .zeroDivisionError := by
  refine ⟨?_, by decide, by decide, by decide⟩
  show Except.ok _ = _
  norm_num [gapSum, sortDividends]

/-- C5: a zero-day gap does not fail.  Python's `range(0)` loop body never
runs, so the division never happens: the duplicate pair is silently skipped
and the whole call returns an empty series with no error and no record. -/
theorem c5_zero_gap_silently_skipped :
    daily_dividends exDup true = .ok [] ∧
    pairRecords { date := rataDie 2020 8 11, dividend := some (3/10) }
      { date := rataDie 2020 8 11, dividend := some (3/10) } = .ok [] := by
  constructor
  · decide
  · decide

/-! C10: amount conservation for one interpolated pair. -/

lemma pairRecords_ok (prev next : Dividend) (a : ℚ) (ha : prev.dividend = some a)
    (hlt : prev.date < next.date) :
    pairRecords prev next =
      .ok ((List.range (next.date - prev.date).toNat).map fun d : ℕ =>
        { date := prev.date + (d : ℤ),
          dividend := some (a / ((next.date - prev.date).toNat : ℚ)) }) := by
  unfold pairRecords
  have hgap : (next.date - prev.date).toNat ≠ 0 := by omega
  simp [ha, hgap]

/-- C10: for a consecutive pair with a positive day gap, the emitted block has
one record per day and its amounts, summed in exact rational arithmetic, give
back exactly the departing event's amount. -/
theorem c10_pair_amount_conserved (prev next : Dividend) (a : ℚ)
    (ha : prev.dividend = some a) (hlt : prev.date < next.date) :
    ∃ blk, pairRecords prev next = .ok blk ∧
      blk.length = (next.date - prev.date).toNat ∧ amountSum blk = a := by
  have hne : (next.date - prev.date).toNat ≠ 0 := by omega
  have hq : (((next.date - prev.date).toNat : ℕ) : ℚ) ≠ 0 := Nat.cast_ne_zero.mpr hne
  refine ⟨_, pairRecords_ok prev next a ha hlt, ?_, ?_⟩
  · rw [List.length_map, List.length_range]
  · unfold amountSum
    rw [List.map_map]
    have hcomp : ((fun r : Dividend => r.dividend.getD 0) ∘ fun d : ℕ =>
        ({ date := prev.date + (d : ℤ),
           dividend := some (a / ((next.date - prev.date).toNat : ℚ)) } : Dividend)) =
        fun _ : ℕ => a / ((next.date - prev.date).toNat : ℚ) := by
      funext d
      rfl
    rw [hcomp, List.map_const', List.length_range, List.sum_replicate, nsmul_eq_mul]
    rw [mul_comm, div_mul_cancel₀ a hq]

/-- Witness for C10 at the pair (date 0, amount 1), (date 3): a three-day gap
emits three records summing to the full amount 1. -/
theorem c10_pair_amount_conserved_witness :
    ∃ blk, pairRecords { date := 0, dividend := some 1 } { date := 3 } = .ok blk ∧
      blk.length = ((3 : ℤ) - 0).toNat ∧ amountSum blk = 1 :=
  c10_pair_amount_conserved { date := 0, dividend := some 1 } { date := 3 } 1 rfl (by decide)

/-! C7: the interval averager computes the arithmetic mean of adjacent gaps. -/

lemma dateGaps_cons (p n : Dividend) (rest : List Dividend) :
    dateGaps (p :: n :: rest) = (n.date - p.date) :: dateGaps (n :: rest) := rfl

lemma gapSum_eq_sum_dateGaps : ∀ s : List Dividend, gapSum s = (dateGaps s).sum
  | [] => rfl
  | [_] => rfl
  | p :: n :: rest => by
      rw [dateGaps_cons, List.sum_cons, gapSum, gapSum_eq_sum_dateGaps (n :: rest)]

lemma dateGaps_length : ∀ s : List Dividend, (dateGaps s).length = s.length - 1
  | [] => rfl
  | [_] => rfl
  | p :: n :: rest => by
      rw [dateGaps_cons, List.length_cons, dateGaps_length (n :: rest)]
      simp

/-- C7: on at least two events with distinct dates, `avg_days_between` returns
exactly the arithmetic mean of the day gaps between temporally adjacent
(date-sorted) events. -/
theorem c7_avg_is_mean_of_adjacent_gaps (l : List Dividend) (h2 : 2 ≤ l.length)
    (hdist : l.Pairwise fun a b => a.date ≠ b.date) :
    avg_days_between l = .ok (arithMean (dateGaps (sortDividends l))) := by
  have hne : l.length ≠ 1 := by omega
  have hden : ((dateGaps (sortDividends l)).length : ℚ) = (l.length : ℚ) - 1 := by
    rw [dateGaps_length, sortDividends_length, Nat.cast_sub (by omega : 1 ≤ l.length)]
    norm_num
  unfold avg_days_between arithMean
  rw [if_neg hne, gapSum_eq_sum_dateGaps, hden]

/-- Witness for C7 at the test input `ex7` (2020-08-11, 2020-09-10,
2020-10-10): the gaps are 30 and 30 and the returned average is 30. -/
theorem c7_avg_is_mean_witness :
    avg_days_between ex7 = .ok (arithMean (dateGaps (sortDividends ex7))) ∧
    arithMean (dateGaps (sortDividends ex7)) = 30 := by
  constructor
  · exact c7_avg_is_mean_of_adjacent_gaps ex7 (by decide) (by decide)
  · have h : dateGaps (sortDividends ex7) = [30, 30] := by decide
    rw [h]
    norm_num [arithMean, List.sum_cons, List.sum_nil]

/-! Bridge between the integer-fused ceiling and the mathematical ceiling of
the exact average, needed for the extrapolation claim. -/

lemma intCeilDiv_eq_ceil (a : ℤ) (b : ℕ) :
    intCeilDiv a b = ⌈(a : ℚ) / (b : ℚ)⌉ := by
  have h : ⌊((-a : ℤ) : ℚ) / (b : ℚ)⌋ = (-a) / (b : ℤ) := Rat.floor_intCast_div_natCast (-a) b
  have h2 : ((-a : ℤ) : ℚ) / (b : ℚ) = -((a : ℚ) / (b : ℚ)) := by push_cast; ring
  rw [h2, Int.floor_neg] at h
  unfold intCeilDiv
  omega

/-- The fused `ceilAvgDays` is exactly `math.ceil` applied to the value of
`avg_days_between`, on every input (including the empty and singleton
lists). -/
lemma ceilAvgDays_eq (l : List Dividend) :
    ceilAvgDays l = (avg_days_between l).map fun q => ⌈q⌉ := by
  unfold ceilAvgDays avg_days_between
  by_cases h1 : l.length = 1
  · simp [h1, Except.map]
  · rw [if_neg h1, if_neg h1]
    by_cases h0 : l.length = 0
    · have hl : l = [] := List.length_eq_zero.mp h0
      subst hl
      simp only [List.length_nil, if_pos rfl, Except.map,
        show sortDividends ([] : List Dividend) = [] from rfl, gapSum]
      norm_num
    · rw [if_neg h0]
      simp only [Except.map]
      rw [intCeilDiv_eq_ceil]
      congr 2
      rw [Nat.cast_sub (by omega : 1 ≤ l.length)]
      norm_num

/-! C1: the interpolation pass emits exactly the spec's per-pair blocks and
never the final event's own date. -/

lemma sortDividends_chain_lt (l : List Dividend)
    (hdist : l.Pairwise fun a b => a.date ≠ b.date) :
    List.Chain' (fun a b => a.date < b.date) (sortDividends l) := by
  have hsorted : (sortDividends l).Pairwise fun a b => a.date ≤ b.date :=
    sortDividends_sorted l
  have hdist' : (sortDividends l).Pairwise fun a b => a.date ≠ b.date :=
    ((sortDividends_perm l).pairwise_iff fun h he => h he.symm).mpr hdist
  exact ((hsorted.and hdist').imp fun h => lt_of_le_of_ne h.1 h.2).chain'

lemma interpolate_eq_specInterp : ∀ s : List Dividend,
    List.Chain' (fun a b => a.date < b.date) s →
    (∀ e ∈ s, e.dividend.isSome) →
    interpolate s = .ok (specInterp s)
  | [], _, _ => rfl
  | [_], _, _ => rfl
  | p :: n :: rest, hchain, hsome => by
      obtain ⟨hpn, hchain2⟩ := List.chain'_cons.mp hchain
      obtain ⟨a, ha⟩ := Option.isSome_iff_exists.mp (hsome p (by simp))
      have hrec := interpolate_eq_specInterp (n :: rest) hchain2
        (fun e he => hsome e (by simp [List.mem_cons] at he ⊢; tauto))
      show (do
        let blk ← pairRecords p n
        let more ← interpolate (n :: rest)
        pure (blk ++ more)) = Except.ok (specInterp (p :: n :: rest))
      rw [pairRecords_ok p n a ha hpn, hrec]
      show Except.ok _ = _
      rw [specInterp]
      congr 1
      unfold specBlock
      simp [ha]

lemma chain_lt_head_le_getLast : ∀ (n : Dividend) (rest : List Dividend),
    List.Chain' (fun a b => a.date < b.date) (n :: rest) →
    ∀ x, (n :: rest).getLast? = some x → n.date ≤ x.date
  | n, [], _, x, hx => by
      have hnx : n = x := by simpa using hx
      exact le_of_eq (by rw [hnx])
  | n, m :: rest, hchain, x, hx => by
      obtain ⟨hnm, hchain2⟩ := List.chain'_cons.mp hchain
      have hrec := chain_lt_head_le_getLast m rest hchain2 x (by
        rw [List.getLast?_cons_cons] at hx
        exact hx)
      omega

lemma specInterp_dates_lt_last : ∀ s : List Dividend,
    List.Chain' (fun a b => a.date < b.date) s →
    ∀ x, s.getLast? = some x → ∀ r ∈ specInterp s, r.date < x.date
  | [], _, x, hx => by simp at hx
  | [_], _, x, _ => by
      intro r hr
      simp [specInterp] at hr
  | p :: n :: rest, hchain, x, hx => by
      obtain ⟨hpn, hchain2⟩ := List.chain'_cons.mp hchain
      have hx2 : (n :: rest).getLast? = some x := by
        rw [List.getLast?_cons_cons] at hx
        exact hx
      have hnx : n.date ≤ x.date := chain_lt_head_le_getLast n rest hchain2 x hx2
      intro r hr
      rw [specInterp] at hr
      rcases List.mem_append.mp hr with hblk | hrest
      · unfold specBlock at hblk
        obtain ⟨d, hd, rfl⟩ := List.mem_map.mp hblk
        rw [List.mem_range] at hd
        have hd2 : (d : ℤ) < ((n.date - p.date).toNat : ℤ) := by exact_mod_cast hd
        show p.date + (d : ℤ) < x.date
        omega
      · exact specInterp_dates_lt_last (n :: rest) hchain2 x hx2 r hrest

/-- C1: on at least two events with distinct dates (and amounts present, as
the pipeline's events always have), the interpolation pass returns exactly,
and in order, the spec's per-pair blocks — for each consecutive sorted pair
one record per day offset in `[0, gap)`, dated `prev.date + d` with amount
`prev.amount / gap` — and every emitted date is strictly before the final
event's date, so the final date is never emitted by this pass. -/
theorem c1_interpolation_refines_spec (l : List Dividend) (h2 : 2 ≤ l.length)
    (hdist : l.Pairwise fun a b => a.date ≠ b.date)
    (hsome : ∀ e ∈ l, e.dividend.isSome) :
    interpolate (sortDividends l) = .ok (specInterp (sortDividends l)) ∧
    ∀ x, (sortDividends l).getLast? = some x →
      ∀ r ∈ specInterp (sortDividends l), r.date < x.date := by
  have hchain := sortDividends_chain_lt l hdist
  have hsome2 : ∀ e ∈ sortDividends l, e.dividend.isSome := fun e he =>
    hsome e (mem_sortDividends.mp he)
  exact ⟨interpolate_eq_specInterp _ hchain hsome2,
    specInterp_dates_lt_last _ hchain⟩

/-- Witness for C1 at the test input `ex3`. -/
theorem c1_interpolation_refines_spec_witness :
    interpolate (sortDividends ex3) = .ok (specInterp (sortDividends ex3)) ∧
    ∀ x, (sortDividends ex3).getLast? = some x →
      ∀ r ∈ specInterp (sortDividends ex3), r.date < x.date :=
  c1_interpolation_refines_spec ex3 (by decide) (by decide) (by decide)

/-! C2: with prediction on, the output is the interpolation output plus
exactly `⌈avg⌉` records extending from the last event's date. -/

lemma pairRecords_isSome_ok (p n : Dividend) (hp : p.dividend.isSome) :
    ∃ blk, pairRecords p n = .ok blk := by
  unfold pairRecords
  by_cases hgap : (n.date - p.date).toNat = 0
  · exact ⟨[], by rw [if_pos hgap]⟩
  · obtain ⟨a, ha⟩ := Option.isSome_iff_exists.mp hp
    rw [if_neg hgap, ha]
    exact ⟨_, rfl⟩

lemma interpolate_ok : ∀ s : List Dividend, (∀ e ∈ s, e.dividend.isSome) →
    ∃ out, interpolate s = .ok out
  | [], _ => ⟨[], rfl⟩
  | [_], _ => ⟨[], rfl⟩
  | p :: n :: rest, hsome => by
      obtain ⟨blk, hblk⟩ := pairRecords_isSome_ok p n (hsome p (by simp))
      obtain ⟨more, hmore⟩ := interpolate_ok (n :: rest)
        (fun e he => hsome e (by simp [List.mem_cons] at he ⊢; tauto))
      refine ⟨blk ++ more, ?_⟩
      show (do
        let blk ← pairRecords p n
        let more ← interpolate (n :: rest)
        pure (blk ++ more)) = _
      rw [hblk, hmore]
      rfl

lemma except_bind_ok {ε α β : Type} (v : α) (f : α → Except ε β) :
    (Except.ok v : Except ε α) >>= f = f v := rfl

lemma ceilAvgDays_sortDividends (l : List Dividend) :
    ceilAvgDays (sortDividends l) = ceilAvgDays l := by
  unfold ceilAvgDays
  rw [sortDividends_idem, sortDividends_length]

lemma gapSum_nonneg : ∀ s : List Dividend,
    List.Chain' (fun a b => a.date ≤ b.date) s → 0 ≤ gapSum s
  | [], _ => le_refl 0
  | [_], _ => le_refl 0
  | p :: n :: rest, h => by
      obtain ⟨hpn, h2⟩ := List.chain'_cons.mp h
      have hrec := gapSum_nonneg (n :: rest) h2
      rw [gapSum]
      omega

/-- C2: on at least two events (amounts present), with the prediction flag on
(its default), `daily_dividends` returns exactly the flag-off output followed
by `g = ⌈avg⌉.toNat` additional records, where `avg` is the value
`avg_days_between` computes on the full event sequence (`⌈avg⌉` is
nonnegative, so `toNat` clips nothing), dated `last.date + d` for
`d ∈ [0, g)` and each carrying amount `last.amount / g`. -/
theorem c2_extrapolation_appends_ceil_avg_block (l : List Dividend)
    (h2 : 2 ≤ l.length) (hsome : ∀ e ∈ l, e.dividend.isSome) :
    ∃ interp last a avg,
      daily_dividends l false = .ok interp ∧
      avg_days_between l = .ok avg ∧ 0 ≤ ⌈avg⌉ ∧
      (sortDividends l).getLast? = some last ∧ last.dividend = some a ∧
      daily_dividends l true = .ok (interp ++
        (List.range ⌈avg⌉.toNat).map fun d : ℕ =>
          { date := last.date + (d : ℤ), dividend := some (a / (⌈avg⌉.toNat : ℚ)) }) := by
  have hlen : (sortDividends l).length = l.length := sortDividends_length l
  have hne : sortDividends l ≠ [] := by
    intro h
    rw [h] at hlen
    simp at hlen
    omega
  obtain ⟨x, xs, hs⟩ := List.exists_cons_of_ne_nil hne
  have hsome2 : ∀ e ∈ sortDividends l, e.dividend.isSome := fun e he =>
    hsome e (mem_sortDividends.mp he)
  obtain ⟨interp, hinterp⟩ := interpolate_ok (sortDividends l) hsome2
  rw [hs] at hinterp
  have hlast? : (sortDividends l).getLast? =
      some ((x :: xs).getLast (List.cons_ne_nil x xs)) := by
    rw [hs]
    exact List.getLast?_eq_getLast _ _
  set last := (x :: xs).getLast (List.cons_ne_nil x xs) with hlastdef
  have hlastmem : last ∈ sortDividends l := by
    rw [hs]
    exact List.getLast_mem _
  obtain ⟨a, ha⟩ := Option.isSome_iff_exists.mp (hsome2 last hlastmem)
  have hne1 : l.length ≠ 1 := by omega
  have havg : avg_days_between l =
      .ok ((gapSum (sortDividends l) : ℚ) / ((l.length : ℚ) - 1)) := by
    unfold avg_days_between
    rw [if_neg hne1]
  set avg : ℚ := (gapSum (sortDividends l) : ℚ) / ((l.length : ℚ) - 1) with havgdef
  have havg0 : 0 ≤ avg := by
    apply div_nonneg
    · exact_mod_cast gapSum_nonneg _ (sortDividends_sorted l).chain'
    · have hc : (2 : ℚ) ≤ (l.length : ℚ) := by exact_mod_cast h2
      linarith
  have hceil0 : 0 ≤ ⌈avg⌉ := Int.ceil_nonneg havg0
  have hceil : ceilAvgDays (x :: xs) = .ok ⌈avg⌉ := by
    rw [← hs, ceilAvgDays_sortDividends, ceilAvgDays_eq, havg]
    rfl
  refine ⟨interp, last, a, avg, ?_, havg, hceil0, hlast?, ha, ?_⟩
  · unfold daily_dividends
    rw [hs]
    simp only [hinterp, except_bind_ok]
    rfl
  · unfold daily_dividends
    rw [hs]
    simp only [hinterp, except_bind_ok, hceil]
    by_cases h0 : (⌈avg⌉).toNat = 0
    · rw [if_pos h0, h0]
      simp
      rfl
    · rw [if_neg h0]
      simp only [← hlastdef, ha]
      rfl

/-- Witness for C2 at the test input `ex3`. -/
theorem c2_extrapolation_appends_ceil_avg_block_witness :
    ∃ interp last a avg,
      daily_dividends ex3 false = .ok interp ∧
      avg_days_between ex3 = .ok avg ∧ 0 ≤ ⌈avg⌉ ∧
      (sortDividends ex3).getLast? = some last ∧ last.dividend = some a ∧
      daily_dividends ex3 true = .ok (interp ++
        (List.range ⌈avg⌉.toNat).map fun d : ℕ =>
          { date := last.date + (d : ℤ), dividend := some (a / (⌈avg⌉.toNat : ℚ)) }) :=
  c2_extrapolation_appends_ceil_avg_block ex3 (by decide) (by decide)

/-! C3: the end-to-end test input.  The 90 records span 2020-08-11 through
2020-11-08 (not through 2020-11-09, which would be 91 days). -/

/-- C3 (counterexample): the pipeline emits 90 records whose dates do not
include 2020-11-09 and are not the 91 calendar days 2020-08-11 through
2020-11-09 inclusive — the claimed span is off by one day. -/
theorem c3_counterexample :
    daily_dividends ex3 true = .ok c3out ∧
    rataDie 2020 11 9 ∉ c3out.map (fun r => r.date) ∧
    Multiset.ofList (c3out.map fun r => r.date) ≠
      Multiset.ofList ((List.range 91).map fun d : ℕ => rataDie 2020 8 11 + (d : ℤ)) := by
  refine ⟨rfl, by decide, by decide⟩

/-- C3 (amended): on the three test events with extrapolation on, the pipeline
yields exactly 90 records whose dates are exactly the calendar days
2020-08-11 through 2020-11-08 inclusive (as an unordered multiset; day 89
after 2020-08-11 is 2020-11-08) and whose amounts are each 0.01. -/
theorem c3_pipeline_end_to_end :
    daily_dividends ex3 true = .ok c3out ∧
    c3out.length = 90 ∧
    Multiset.ofList (c3out.map fun r => r.date) =
      Multiset.ofList ((List.range 90).map fun d : ℕ => rataDie 2020 8 11 + (d : ℤ)) ∧
    rataDie 2020 8 11 + 89 = rataDie 2020 11 8 ∧
    ∀ r ∈ c3out, r.dividend = some (1/100 : ℚ) := by
  refine ⟨rfl, by decide, by decide, by decide, ?_⟩
  intro r hr
  simp only [c3out, List.mem_append, List.mem_map, List.mem_range] at hr
  rcases hr with (⟨d, _, rfl⟩ | ⟨d, _, rfl⟩) | ⟨d, _, rfl⟩ <;> norm_num

/-! C8: the lookup of the last event before a date. -/

lemma firstAfterIdx_none_iff (q : ℤ) : ∀ s : List Dividend,
    firstAfterIdx q s = none ↔ ∀ e ∈ s, e.date ≤ q
  | [] => by simp [firstAfterIdx]
  | d :: rest => by
      rw [firstAfterIdx]
      by_cases hq : q < d.date
      · rw [if_pos hq]
        simp only [List.mem_cons]
        constructor
        · intro h
          cases h
        · intro h
          exact absurd (h d (Or.inl rfl)) (by omega)
      · rw [if_neg hq, Option.map_eq_none', firstAfterIdx_none_iff q rest]
        simp only [List.mem_cons]
        constructor
        · intro h e he
          rcases he with rfl | he
          · omega
          · exact h e he
        · intro h e he
          exact h e (Or.inr he)

lemma firstAfterIdx_some : ∀ (s : List Dividend) (q : ℤ) (i : ℕ),
    firstAfterIdx q s = some i →
    ∃ d, s[i]? = some d ∧ q < d.date ∧
      ∀ j, j < i → ∀ e, s[j]? = some e → e.date ≤ q
  | [], q, i => by simp [firstAfterIdx]
  | d :: rest, q, i => by
      intro h
      rw [firstAfterIdx] at h
      by_cases hq : q < d.date
      · rw [if_pos hq] at h
        have hi0 : i = 0 := by
          injection h with h2
          omega
        subst hi0
        refine ⟨d, by simp, hq, ?_⟩
        intro j hj
        omega
      · rw [if_neg hq] at h
        obtain ⟨i2, hi2, rfl⟩ : ∃ i2, firstAfterIdx q rest = some i2 ∧ i = i2 + 1 := by
          cases hfa : firstAfterIdx q rest with
          | none =>
              rw [hfa] at h
              simp at h
          | some k =>
              rw [hfa] at h
              simp only [Option.map_some'] at h
              injection h with h2
              exact ⟨k, rfl, h2.symm⟩
        obtain ⟨e, he, hqe, hj⟩ := firstAfterIdx_some rest q i2 hi2
        refine ⟨e, by simpa using he, hqe, ?_⟩
        intro j hji e2 he2
        cases j with
        | zero =>
            have hde : d = e2 := by simpa using he2
            subst hde
            omega
        | succ j2 =>
            exact hj j2 (by omega) e2 (by simpa using he2)

lemma sorted_date_le_of_getElem {s : List Dividend}
    (hsorted : List.Sorted (fun a b : Dividend => a.date ≤ b.date) s)
    {i j : ℕ} (hi : i < s.length) (hj : j < s.length) (hij : i ≤ j) :
    (s.get ⟨i, hi⟩).date ≤ (s.get ⟨j, hj⟩).date := by
  rcases Nat.lt_or_ge i j with h | h
  · exact List.pairwise_iff_get.mp hsorted ⟨i, hi⟩ ⟨j, hj⟩ h
  · have hij2 : i = j := by omega
    subst hij2
    exact le_refl _

/-- C8 (counterexample): with a single event strictly before the query date,
the scan never finds an element after the query, falls off the end of the
loop, and returns `None` — not the greatest event before the query. -/
theorem c8_counterexample :
    last_dividend_before [{ date := rataDie 2020 10 18 }] (rataDie 2020 10 20) = none ∧
    rataDie 2020 10 18 < rataDie 2020 10 20 := by
  constructor
  · decide
  · decide

/-- C8 (amended): whenever some event lies strictly after the query date and
some event lies at or before it, `last_dividend_before` returns an event of
the list with the greatest date at or before the query (`≤`, not strictly
before: an event dated exactly at the query is itself returned). -/
theorem c8_amended_last_before (l : List Dividend) (q : ℤ)
    (hafter : ∃ e ∈ l, q < e.date) (hbefore : ∃ e ∈ l, e.date ≤ q) :
    ∃ r, last_dividend_before l q = some r ∧ r ∈ l ∧ r.date ≤ q ∧
      ∀ e ∈ l, e.date ≤ q → e.date ≤ r.date := by
  set s := sortDividends l with hsdef
  have hperm := sortDividends_perm l
  have hsorted := sortDividends_sorted l
  obtain ⟨i, hi⟩ : ∃ i, firstAfterIdx q s = some i := by
    cases hfa : firstAfterIdx q s with
    | none =>
        obtain ⟨e, hel, hed⟩ := hafter
        have := (firstAfterIdx_none_iff q s).mp hfa e (hperm.mem_iff.mpr hel)
        omega
    | some i => exact ⟨i, rfl⟩
  obtain ⟨d, hd, hqd, hmax⟩ := firstAfterIdx_some s q i hi
  obtain ⟨hdlen, hdget⟩ := List.getElem?_eq_some.mp hd
  have hi0 : i ≠ 0 := by
    intro h0
    subst h0
    obtain ⟨e, hel, hed⟩ := hbefore
    obtain ⟨k, hk, hek⟩ := List.mem_iff_getElem.mp (hperm.mem_iff.mpr hel)
    have hde : d.date ≤ e.date := by
      have h2 := sorted_date_le_of_getElem hsorted hdlen hk (by omega)
      rw [List.get_eq_getElem, List.get_eq_getElem, hdget, hek] at h2
      exact h2
    omega
  obtain ⟨j, rfl⟩ : ∃ j, i = j + 1 := ⟨i - 1, by omega⟩
  have hjlen : j < s.length := by omega
  have hr? : s[j]? = some s[j] := List.getElem?_eq_getElem hjlen
  have hrdate : s[j].date ≤ q := hmax j (by omega) _ hr?
  refine ⟨s[j], ?_, hperm.mem_iff.mp (List.getElem_mem hjlen), hrdate, ?_⟩
  · show (match firstAfterIdx q (sortDividends l) with
      | none => none
      | some 0 => (sortDividends l).getLast?
      | some (i + 1) => (sortDividends l)[i]?) = some s[j]
    rw [← hsdef, hi]
    exact hr?
  · intro e hel hed
    obtain ⟨k, hk, hek⟩ := List.mem_iff_getElem.mp (hperm.mem_iff.mpr hel)
    rcases Nat.lt_or_ge k (j + 1) with hkj | hkj
    · have h2 := sorted_date_le_of_getElem hsorted hk hjlen (by omega)
      rw [List.get_eq_getElem, List.get_eq_getElem, hek] at h2
      exact h2
    · exfalso
      have h2 := sorted_date_le_of_getElem hsorted hdlen hk hkj
      rw [List.get_eq_getElem, List.get_eq_getElem, hdget, hek] at h2
      omega

/-- Witness for C8 (amended) at the test input `ex8` with query 2020-10-21;
the returned event is the one dated 2020-10-20, as the source's unit test
expects. -/
theorem c8_amended_last_before_witness :
    (∃ r, last_dividend_before ex8 (rataDie 2020 10 21) = some r ∧ r ∈ ex8 ∧
      r.date ≤ rataDie 2020 10 21 ∧
      ∀ e ∈ ex8, e.date ≤ rataDie 2020 10 21 → e.date ≤ r.date) ∧
    last_dividend_before ex8 (rataDie 2020 10 21) = some { date := rataDie 2020 10 20 } :=
  ⟨c8_amended_last_before ex8 (rataDie 2020 10 21) (by decide) (by decide), by decide⟩
